import Mathlib

/-!
Verification of the rtcompare bootstrap confidence-estimation core.

The Go code is shallowly embedded: float64 values are modelled by `Flt`
(finite values carried as exact rationals plus the two infinities and NaN;
finite arithmetic is exact, which is noted at each operation it concerns —
every comparison settled below has a margin that IEEE rounding cannot
cross, and the model has no negative zero), uint64/uint32 arithmetic is
Nat with explicit `% 2^64` / `% 2^32` where wrap-around matters, and the
two sources of nondeterminism (the unseeded pivot generator inside
quickselect and the cryptographic generator used for zero seeds) are
modelled as universally quantified oracle streams.
-/

namespace RT

/-- Model of an IEEE-754 float64 value: an exact rational, +Inf, -Inf or NaN. -/
inductive Flt where
  | fin : ℚ → Flt
  | pinf : Flt
  | minf : Flt
  | nan : Flt
deriving DecidableEq

/-- math.IsNaN. -/
def Flt.isNaN : Flt → Bool
  | .nan => true
  | _ => false

/-- math.IsInf(x, 1). -/
def Flt.isInfPos : Flt → Bool
  | .pinf => true
  | _ => false

/-- math.IsInf(x, -1). -/
def Flt.isInfNeg : Flt → Bool
  | .minf => true
  | _ => false

/-- IEEE `<` on float64: false whenever an operand is NaN. -/
def Flt.lt : Flt → Flt → Bool
  | .fin a, .fin b => a < b
  | .fin _, .pinf => true
  | .minf, .fin _ => true
  | .minf, .pinf => true
  | _, _ => false

/-- IEEE `==` on float64: false whenever an operand is NaN, value equality
otherwise (the model has no negative zero). -/
def Flt.beq : Flt → Flt → Bool
  | .fin a, .fin b => a == b
  | .pinf, .pinf => true
  | .minf, .minf => true
  | _, _ => false

/-- IEEE `>=` on float64, as in `delta >= threshold`: false on NaN. -/
def Flt.ge (x y : Flt) : Bool := Flt.lt y x || Flt.beq x y

/-- math.Abs. -/
def Flt.abs : Flt → Flt
  | .fin a => .fin (if a < 0 then -a else a)
  | .pinf => .pinf
  | .minf => .pinf
  | .nan => .nan

/-- float64 multiplication (finite products exact in the model). -/
def Flt.mul : Flt → Flt → Flt
  | .fin a, .fin b => .fin (a * b)
  | .fin a, .pinf => if a = 0 then .nan else if 0 < a then .pinf else .minf
  | .fin a, .minf => if a = 0 then .nan else if 0 < a then .minf else .pinf
  | .pinf, .fin b => if b = 0 then .nan else if 0 < b then .pinf else .minf
  | .minf, .fin b => if b = 0 then .nan else if 0 < b then .minf else .pinf
  | .pinf, .pinf => .pinf
  | .pinf, .minf => .minf
  | .minf, .pinf => .minf
  | .minf, .minf => .pinf
  | _, _ => .nan

/-- float64 division (finite quotients exact in the model; the huge
quotients this development meets only ever feed sign comparisons, which
agree with the IEEE overflow-to-infinity result). -/
def Flt.div : Flt → Flt → Flt
  | .fin a, .fin b =>
      if b = 0 then (if a = 0 then .nan else if 0 < a then .pinf else .minf)
      else .fin (a / b)
  | .fin _, .pinf => .fin 0
  | .fin _, .minf => .fin 0
  | .pinf, .fin b => if 0 ≤ b then .pinf else .minf
  | .minf, .fin b => if 0 ≤ b then .minf else .pinf
  | _, _ => .nan

/-- float64 subtraction (finite differences exact in the model). -/
def Flt.sub : Flt → Flt → Flt
  | .fin a, .fin b => .fin (a - b)
  | .fin _, .pinf => .minf
  | .fin _, .minf => .pinf
  | .pinf, .fin _ => .pinf
  | .minf, .fin _ => .minf
  | .pinf, .minf => .pinf
  | .minf, .pinf => .minf
  | _, _ => .nan

/-- math.Max: NaN if either operand is NaN, otherwise the larger operand. -/
def Flt.max : Flt → Flt → Flt
  | .nan, _ => .nan
  | _, .nan => .nan
  | x, y => if Flt.lt x y then y else x

/-- math.SmallestNonzeroFloat64 = 2^-1074. -/
def smallestNonzero : Flt := .fin (1 / 2 ^ 1074)

/-- the literal 1e-12 in the epsilon guard of BootstrapConfidence, modelled
as the exact rational 10^-12; no claim settled here depends on the
literal's IEEE rounding. -/
def relEps : Flt := .fin (1 / 10 ^ 12)

/-- cmp.Less on float64, the order used by slices.Sort: NaN sorts before
everything else. -/
def ltGo (x y : Flt) : Bool := (x.isNaN && !y.isNaN) || Flt.lt x y

/-- the non-strict order induced by cmp.Less; a linear order on the model. -/
def leGo (x y : Flt) : Prop := ltGo y x = false

instance : DecidableRel leGo := fun x y => by
  unfold leGo; infer_instance

theorem ltGo_asymm {a b : Flt} (h : ltGo a b = true) : ltGo b a = false := by
  cases a <;> cases b <;>
    simp_all [ltGo, Flt.lt, Flt.isNaN] <;> linarith

theorem ltGo_trans {a b c : Flt} (h1 : ltGo a b = true) (h2 : ltGo b c = true) :
    ltGo a c = true := by
  cases a <;> cases b <;> cases c <;>
    simp_all [ltGo, Flt.lt, Flt.isNaN] <;> linarith

theorem ltGo_trichot (a b : Flt) : ltGo a b = true ∨ a = b ∨ ltGo b a = true := by
  cases a <;> cases b <;>
    simp_all [ltGo, Flt.lt, Flt.isNaN]
  · rename_i x y
    rcases lt_trichotomy x y with h | h | h
    · exact Or.inl h
    · exact Or.inr (Or.inl h)
    · exact Or.inr (Or.inr h)

theorem ltGo_irrefl (a : Flt) : ltGo a a = false := by
  cases h : ltGo a a
  · rfl
  · exact absurd (ltGo_asymm h) (by simp [h])

instance : IsTotal Flt leGo := by
  constructor
  intro a b
  rcases ltGo_trichot a b with h | h | h
  · exact Or.inl (ltGo_asymm h)
  · subst h
    exact Or.inl (ltGo_irrefl a)
  · exact Or.inr (ltGo_asymm h)

instance : IsTrans Flt leGo := by
  constructor
  intro a b c hab hbc
  unfold leGo at *
  by_contra h
  have hca : ltGo c a = true := by
    cases h' : ltGo c a
    · exact absurd h' h
    · rfl
  rcases ltGo_trichot b c with h1 | h1 | h1
  · have h2 : ltGo b a = true := ltGo_trans h1 hca
    rw [h2] at hab
    exact Bool.noConfusion hab
  · subst h1
    rw [hca] at hab
    exact Bool.noConfusion hab
  · rw [h1] at hbc
    exact Bool.noConfusion hbc

instance : IsAntisymm Flt leGo := by
  constructor
  intro a b hab hba
  unfold leGo at hab hba
  rcases ltGo_trichot a b with h | h | h
  · rw [h] at hba; exact Bool.noConfusion hba
  · exact h
  · rw [h] at hab; exact Bool.noConfusion hab

/-- sortGo l is the value sequence slices.Sort produces on l: the unique
arrangement of l sorted under cmp.Less (leGo is antisymmetric on the
model, so the sorted arrangement is unique and the concrete sorting
algorithm is immaterial). -/
def sortGo (l : List Flt) : List Flt := List.insertionSort leGo l

/-- Median from mathstuff.go (sort a copy, take the element at index n/2;
0 for empty input). -/
def Median (data : List Flt) : Flt :=
  if data.length = 0 then .fin 0
  else (sortGo data).getD (data.length / 2) Flt.nan

/-- the parallel assignment xs[i], xs[j] = xs[j], xs[i] on a Go slice. -/
def swapL (xs : List Flt) (i j : ℕ) : List Flt :=
  ((xs.set i (xs.getD j Flt.nan)).set j (xs.getD i Flt.nan))

/-- inner loop of partition (mathstuff.go): for j := low; j < high; j++
with the Lomuto swap; the fuel argument counts the remaining iterations
high - j, so the loop is run with fuel high - low. -/
def partLoop (pivot : Flt) : ℕ → List Flt → ℕ → ℕ → List Flt × ℕ
  | 0, xs, i, _ => (xs, i)
  | f + 1, xs, i, j =>
    if Flt.lt (xs.getD j Flt.nan) pivot then
      partLoop pivot f (swapL xs i j) (i + 1) (j + 1)
    else
      partLoop pivot f xs i (j + 1)

/-- partition from mathstuff.go: Lomuto partition of xs[low..high] around
the pivot xs[high], returning the updated slice and the pivot's final
index. -/
def partitionGo (xs : List Flt) (low high : ℕ) : List Flt × ℕ :=
  let pivot := xs.getD high Flt.nan
  let r := partLoop pivot (high - low) xs low low
  (swapL r.1 r.2 high, r.2)

/-- the selection loop of quickselect (mathstuff.go). `draws t` models the
t-th Uint64() output of the unseeded, randomly-initialized DPRNG that
drives pivot choice, so every theorem quantifying over `draws` covers
every possible run. The fuel argument is a modeling device only: the
out-of-fuel result `none` is proven unreachable at fuel = window size
(claim C10), and quickselect runs the loop with that fuel. -/
def qsLoop (draws : ℕ → ℕ) (k : ℕ) : ℕ → List Flt → ℕ → ℕ → ℕ → Option (List Flt × Flt)
  | 0, _, _, _, _ => none
  | f + 1, xs, low, high, t =>
    if low ≤ high then
      let pivotIndex := draws t % (high - low + 1) + low
      let ys := swapL xs pivotIndex high
      let pr := partitionGo ys low high
      if pr.2 = k then some (pr.1, pr.1.getD k Flt.nan)
      else if pr.2 < k then qsLoop draws k f pr.1 (pr.2 + 1) high (t + 1)
      else qsLoop draws k f pr.1 low (pr.2 - 1) (t + 1)
    else some (xs, xs.getD k Flt.nan)

/-- quickselect from mathstuff.go: NaN for empty input or out-of-range k,
otherwise the k-th order statistic located by randomized Lomuto
quickselect. The `none` fallback is unreachable (claim C10). -/
def quickselect (draws : ℕ → ℕ) (xs : List Flt) (k : ℕ) : Flt :=
  if xs.length = 0 then Flt.nan
  else if k ≥ xs.length then Flt.nan
  else
    match qsLoop draws k xs.length xs 0 (xs.length - 1) 0 with
    | some r => r.2
    | none => Flt.nan

/-- QuickMedian from mathstuff.go: quickselect at index n/2, NaN for an
empty slice. -/
def QuickMedian (draws : ℕ → ℕ) (xs : List Flt) : Flt :=
  if xs.length = 0 then Flt.nan
  else quickselect draws xs (xs.length / 2)

/-- 2^64, the uint64 modulus. -/
def U64 : ℕ := 2 ^ 64

/-- Vigna's scrambler constant from dprng.go. -/
def vigna : ℕ := 0x2545F4914F6CDD1D

/-- DPRNG from dprng.go: xorshift* state, scrambler constant, and the
diagnostic round counter. -/
structure DPRNG where
  State : ℕ
  Scrambler : ℕ
  Round : ℕ
deriving DecidableEq

/-- Uint64 from dprng.go: one 12/25/27 xorshift step on the 64-bit state
followed by the scrambler multiply; returns the advanced generator and
the output. -/
def DPRNG.Uint64 (g : DPRNG) : DPRNG × ℕ :=
  let x0 := g.State
  let x1 := x0 ^^^ (x0 >>> 12)
  let x2 := x1 ^^^ ((x1 <<< 25) % U64)
  let x3 := x2 ^^^ (x2 >>> 27)
  (⟨x3, g.Scrambler, g.Round + 1⟩, (x3 * g.Scrambler) % U64)

/-- NewDPRNG(seed) for the non-zero seeds this development constructs
(state = seed, scrambler = vigna); Go's absent/zero-seed branch instead
draws a random non-zero state and is covered by oracle quantification at
the call sites. -/
def mkDPRNG (seed : ℕ) : DPRNG := ⟨seed, vigna, 0⟩

/-- UInt32N from dprng.go: one Uint64 draw, then the upper 64 bits of the
128-bit product with n (bits.Mul64); the uint32 parameter type is
modelled by the explicit % 2^32. -/
def DPRNG.UInt32N (g : DPRNG) (n : ℕ) : DPRNG × ℕ :=
  let r := g.Uint64
  (r.1, (r.2 * (n % 2 ^ 32)) / U64)

/-- uint32NSpec renders the spec's description of next_uint32_below for
comparison with the code: "take a raw 32-bit draw (derived from one
64-bit call), multiply by n as a 64-bit product, return the high 32
bits", the 32-bit draw being the high half of the 64-bit call. -/
def uint32NSpec (u64 n : ℕ) : ℕ := ((u64 >>> 32) * (n % 2 ^ 32)) >>> 32

/-- the deterministic branch of bootstrapSample (rtcompare.go): n draws
from a DPRNG seeded with the given seed, each indexing into xs; the fuel
argument counts the remaining loop iterations. -/
def dsampleLoop (xs : List Flt) (n : ℕ) : ℕ → DPRNG → List Flt
  | 0, _ => []
  | m + 1, g =>
    let r := g.UInt32N n
    xs.getD r.2 Flt.nan :: dsampleLoop xs n m r.1

/-- bootstrapSample from rtcompare.go. κ abstracts the successive
CPRNG.Uint32N(uint32(n)) results of the zero-seed branch (the real CPRNG
always yields values < n for a non-empty population, which theorems carry
as a hypothesis on κ). -/
def bootstrapSample (κ : ℕ → ℕ) (xs : List Flt) (prngSeed : ℕ) : List Flt :=
  let n := xs.length
  if n = 0 then []
  else if prngSeed ≠ 0 then dsampleLoop xs n n (mkDPRNG prngSeed)
  else (List.range n).map (fun i => xs.getD (κ i) Flt.nan)

/-- iterSeed := prngSeed + i in uint64 arithmetic (BootstrapConfidence). -/
def seedIter (prngSeed i : ℕ) : ℕ := (prngSeed + i) % U64

/-- the per-replicate seed for sample A: iterSeed*2 + 1 in uint64
arithmetic. -/
def seedA (prngSeed i : ℕ) : ℕ := (seedIter prngSeed i * 2 + 1) % U64

/-- the per-replicate seed for sample B: iterSeed*2 + 2 in uint64
arithmetic. -/
def seedB (prngSeed i : ℕ) : ℕ := (seedIter prngSeed i * 2 + 2) % U64

/-- the delta computation of one BootstrapConfidence replicate: the NaN
guard, the zero/equal/infinite special cases, and the scale-aware epsilon
denominator substitution, in the source's order. -/
def deltaOf (medA medB : Flt) : Flt :=
  if medA.isNaN || medB.isNaN then Flt.nan
  else if (Flt.beq medA (.fin 0) && Flt.beq medB (.fin 0)) || Flt.beq medA medB
      || (medA.isInfNeg && medB.isInfNeg) || (medA.isInfPos && medB.isInfPos) then
    .fin 0
  else
    let eps := Flt.max (Flt.mul medB.abs relEps) smallestNonzero
    let denom := if Flt.lt medB.abs eps then eps else medB
    Flt.sub (.fin 1) (Flt.div medA denom)

/-- one full replicate of BootstrapConfidence: seed derivation (zero base
seed keeps both derived seeds zero), the two bootstrap samples, the two
QuickMedians and the delta. π j models the pivot-draw stream of the j-th
QuickMedian call and κ j the CPRNG stream of the j-th bootstrapSample
call (A uses slot 2i, B slot 2i+1). -/
def replicateDelta (π κ : ℕ → ℕ → ℕ) (A B : List Flt) (prngSeed i : ℕ) : Flt :=
  let sA := if prngSeed = 0 then bootstrapSample (κ (2 * i)) A 0
            else bootstrapSample (κ (2 * i)) A (seedA prngSeed i)
  let sB := if prngSeed = 0 then bootstrapSample (κ (2 * i + 1)) B 0
            else bootstrapSample (κ (2 * i + 1)) B (seedB prngSeed i)
  deltaOf (QuickMedian (π (2 * i)) sA) (QuickMedian (π (2 * i + 1)) sB)

/-- one replicate's pass over relativeGains, bumping the per-threshold hit
counters when delta >= threshold. The Go map[float64]uint32 is modelled
as a function (increments wrap at 2^32 like the uint32 counters); plain
equality at the key agrees with Go's float64 key equality because a
bumped key is never NaN (delta >= NaN is false). -/
def bumpCounts (gains : List Flt) (delta : Flt) (counts : Flt → ℕ) : Flt → ℕ :=
  gains.foldl
    (fun m t =>
      if Flt.ge delta t then (fun u => if u = t then (m t + 1) % 2 ^ 32 else m u) else m)
    counts

/-- membership of t among the keys the returned Go map holds, under Go's
float64 equality (a NaN threshold inserts entries no lookup can find). -/
def memGo (gains : List Flt) (t : Flt) : Bool := gains.any (fun g => Flt.beq g t)

/-- BootstrapConfidence from rtcompare.go, as the lookup function of the
returned map (missing keys read as the float64 zero value, matching a Go
map read). resamples = 0 maps every threshold to NaN; otherwise each
threshold key reads hit count / resamples (both converted to float64;
the conversions and the division are exact in the model, which is exact
for every count and replicate number this development relies on). -/
def BootstrapConfidence (π κ : ℕ → ℕ → ℕ) (A B : List Flt) (gains : List Flt)
    (resamples prngSeed : ℕ) : Flt → Flt :=
  if resamples = 0 then
    fun t => if memGo gains t then Flt.nan else .fin 0
  else
    let counts :=
      (List.range resamples).foldl
        (fun m i => bumpCounts gains (replicateDelta π κ A B prngSeed i) m)
        (fun _ => 0)
    fun t => if memGo gains t then .fin ((counts t : ℚ) / (resamples : ℚ)) else .fin 0

/-- MinimumDataPoints from rtcompare.go. -/
def MinimumDataPoints : ℕ := 11

/-- the observable outcome of a CompareSamples call: the returned
(threshold, confidence) records, whether the error return was non-nil,
and the contents of the caller's relativeGains buffer after the call
(CompareSamples sorts that slice in place). -/
structure CompareOutcome where
  result : List (Flt × Flt)
  isError : Bool
  gainsAfter : List Flt
deriving DecidableEq

/-- CompareSamples from rtcompare.go: size validation, default threshold
substitution for an empty list, in-place ascending sort of the
thresholds, delegation to BootstrapConfidence with seed 0, and assembly
of the ordered result records. -/
def CompareSamples (π κ : ℕ → ℕ → ℕ) (A B : List Flt) (relativeGains : List Flt)
    (resamples : ℕ) : CompareOutcome :=
  if A.length < MinimumDataPoints ∨ B.length < MinimumDataPoints then
    ⟨[], true, relativeGains⟩
  else
    let gains := if relativeGains = [] then [Flt.fin 0] else relativeGains
    let sorted := sortGo gains
    let conf := BootstrapConfidence π κ A B sorted resamples 0
    ⟨sorted.map (fun t => (t, conf t)), false,
      if relativeGains = [] then relativeGains else sorted⟩

theorem getD_mem {l : List Flt} {i : ℕ} (h : i < l.length) : l.getD i Flt.nan ∈ l := by
  rw [List.getD_eq_getElem l Flt.nan h]
  exact List.getElem_mem h

theorem mem_index_drop {l : List Flt} {n : ℕ} {v : Flt} (h : v ∈ l.drop n) :
    ∃ m, n ≤ m ∧ m < l.length ∧ l.getD m Flt.nan = v := by
  rcases List.mem_iff_getElem.mp h with ⟨j, hj, hv⟩
  have hjl : n + j < l.length := by
    simp only [List.length_drop] at hj; omega
  refine ⟨n + j, Nat.le_add_right _ _, hjl, ?_⟩
  rw [List.getD_eq_getElem l Flt.nan hjl, ← hv, List.getElem_drop l]

theorem index_mem_drop {l : List Flt} {n m : ℕ} (h1 : n ≤ m) (h2 : m < l.length) :
    l.getD m Flt.nan ∈ l.drop n := by
  have hm : n + (m - n) = m := by omega
  have hlen : m - n < (l.drop n).length := by
    simp only [List.length_drop]; omega
  apply List.mem_iff_getElem.mpr
  refine ⟨m - n, hlen, ?_⟩
  rw [List.getElem_drop l, List.getD_eq_getElem l Flt.nan h2]
  simp only [hm]

theorem mem_index_take {l : List Flt} {n : ℕ} {v : Flt} (h : v ∈ l.take n) :
    ∃ m, m < n ∧ m < l.length ∧ l.getD m Flt.nan = v := by
  rcases List.mem_iff_getElem.mp h with ⟨j, hj, hv⟩
  have hjl : j < l.length ∧ j < n := by
    simp only [List.length_take] at hj; omega
  refine ⟨j, hjl.2, hjl.1, ?_⟩
  rw [List.getD_eq_getElem l Flt.nan hjl.1, ← hv, List.getElem_take l]

theorem index_mem_take {l : List Flt} {n m : ℕ} (h1 : m < n) (h2 : m < l.length) :
    l.getD m Flt.nan ∈ l.take n := by
  have hlen : m < (l.take n).length := by
    simp only [List.length_take]; omega
  apply List.mem_iff_getElem.mpr
  refine ⟨m, hlen, ?_⟩
  rw [List.getElem_take l, List.getD_eq_getElem l Flt.nan h2]

theorem take_eq_pointwise {l l' : List Flt} {n : ℕ} (h : l.take n = l'.take n)
    {m : ℕ} (hm : m < n) : l.getD m Flt.nan = l'.getD m Flt.nan := by
  have hlen : min n l.length = min n l'.length := by
    have := congrArg List.length h
    simpa [List.length_take] using this
  by_cases hml : m < l.length
  · have hml' : m < l'.length := by omega
    have hb1 : m < (l.take n).length := by
      simp only [List.length_take]
      omega
    have hb2 : m < (l'.take n).length := by
      simp only [List.length_take]
      omega
    have e1 : (l.take n).getD m Flt.nan = l.getD m Flt.nan := by
      rw [List.getD_eq_getElem _ Flt.nan hb1, List.getD_eq_getElem l Flt.nan hml]
      exact List.getElem_take l
    have e2 : (l'.take n).getD m Flt.nan = l'.getD m Flt.nan := by
      rw [List.getD_eq_getElem _ Flt.nan hb2, List.getD_eq_getElem l' Flt.nan hml']
      exact List.getElem_take l'
    rw [← e1, ← e2, h]
  · have hml' : ¬ m < l'.length := by omega
    rw [List.getD_eq_default l Flt.nan (by omega), List.getD_eq_default l' Flt.nan (by omega)]

theorem drop_eq_pointwise {l l' : List Flt} {n : ℕ} (h : l.drop n = l'.drop n)
    (hlen : l.length = l'.length) {m : ℕ} (hm : n ≤ m) :
    l.getD m Flt.nan = l'.getD m Flt.nan := by
  by_cases hml : m < l.length
  · have hml' : m < l'.length := by omega
    have hmn : n + (m - n) = m := by omega
    have hb1 : m - n < (l.drop n).length := by
      simp only [List.length_drop]
      omega
    have hb2 : m - n < (l'.drop n).length := by
      simp only [List.length_drop]
      omega
    have e1 : (l.drop n).getD (m - n) Flt.nan = l.getD m Flt.nan := by
      rw [List.getD_eq_getElem _ Flt.nan hb1, List.getD_eq_getElem l Flt.nan hml,
        List.getElem_drop l]
      simp only [hmn]
    have e2 : (l'.drop n).getD (m - n) Flt.nan = l'.getD m Flt.nan := by
      rw [List.getD_eq_getElem _ Flt.nan hb2, List.getD_eq_getElem l' Flt.nan hml',
        List.getElem_drop l']
      simp only [hmn]
    rw [← e1, ← e2, h]
  · rw [List.getD_eq_default l Flt.nan (by omega), List.getD_eq_default l' Flt.nan (by omega)]

theorem count_one_le_of_getD {l : List Flt} {i : ℕ} (h : i < l.length) {v : Flt}
    (hv : l.getD i Flt.nan = v) : 1 ≤ l.count v := by
  apply Nat.one_le_iff_ne_zero.mpr
  have hmem : v ∈ l := by rw [← hv]; exact getD_mem h
  have := List.count_pos_iff.mpr hmem
  omega

theorem swapL_length (xs : List Flt) (i j : ℕ) : (swapL xs i j).length = xs.length := by
  simp [swapL]

theorem swapL_perm {xs : List Flt} {i j : ℕ} (hi : i < xs.length) (hj : j < xs.length) :
    List.Perm (swapL xs i j) xs := by
  apply List.perm_iff_count.mpr
  intro v
  have hj1 : j < (xs.set i (xs.getD j Flt.nan)).length := by simpa using hj
  have hset : (xs.set i (xs.getD j Flt.nan))[j] = xs.getD j Flt.nan := by
    rw [List.getElem_set hj1]
    by_cases hij : i = j
    · simp [hij]
    · simp only [hij, if_false]
      exact (List.getD_eq_getElem xs Flt.nan hj).symm
  rw [swapL, List.count_set _ _ _ _ hj1, List.count_set _ _ _ _ hi, hset]
  rw [List.getD_eq_getElem xs Flt.nan hj, List.getD_eq_getElem xs Flt.nan hi]
  by_cases h1 : xs[i] = v
  · have hpos : 1 ≤ xs.count v := by
      have hmem : v ∈ xs := by rw [← h1]; exact List.getElem_mem hi
      have := List.count_pos_iff.mpr hmem
      omega
    by_cases h2 : xs[j] = v
    · simp only [beq_iff_eq, h1, h2, eq_self_iff_true, if_true]
      omega
    · simp only [beq_iff_eq, h1, eq_self_iff_true, if_true, if_neg h2]
      omega
  · by_cases h2 : xs[j] = v
    · simp only [beq_iff_eq, h2, eq_self_iff_true, if_true, if_neg h1]
      omega
    · simp only [beq_iff_eq, if_neg h1, if_neg h2]
      omega

theorem swapL_getD_fst {xs : List Flt} {i j : ℕ} (hi : i < xs.length) (hj : j < xs.length) :
    (swapL xs i j).getD i Flt.nan = xs.getD j Flt.nan := by
  have hi2 : i < (swapL xs i j).length := by rw [swapL_length]; exact hi
  rw [swapL] at hi2 ⊢
  rw [List.getD_eq_getElem _ Flt.nan hi2, List.getElem_set]
  by_cases hij : j = i
  · subst hij; simp
  · simp [hij, List.getElem_set, List.getD_eq_getElem xs Flt.nan hj]

theorem swapL_getD_snd {xs : List Flt} {i j : ℕ} (hj : j < xs.length) :
    (swapL xs i j).getD j Flt.nan = xs.getD i Flt.nan := by
  have hj2 : j < (swapL xs i j).length := by rw [swapL_length]; exact hj
  rw [swapL] at hj2 ⊢
  rw [List.getD_eq_getElem _ Flt.nan hj2, List.getElem_set]
  simp

theorem swapL_getD_ne {xs : List Flt} {i j m : ℕ} (hmi : m ≠ i) (hmj : m ≠ j) :
    (swapL xs i j).getD m Flt.nan = xs.getD m Flt.nan := by
  by_cases hm : m < xs.length
  · have hm2 : m < (swapL xs i j).length := by rw [swapL_length]; exact hm
    rw [swapL] at hm2 ⊢
    rw [List.getD_eq_getElem _ Flt.nan hm2, List.getElem_set]
    simp only [Ne.symm hmj, if_false]
    rw [List.getElem_set]
    simp only [Ne.symm hmi, if_false]
    exact (List.getD_eq_getElem xs Flt.nan hm).symm
  · rw [List.getD_eq_default _ Flt.nan (by rw [swapL_length]; omega),
      List.getD_eq_default _ Flt.nan (by omega)]

theorem drop_perm_of_take_eq {l l' : List Flt} {n : ℕ} (hp : List.Perm l l')
    (ht : l.take n = l'.take n) : List.Perm (l.drop n) (l'.drop n) := by
  apply List.perm_iff_count.mpr
  intro v
  have h1 : l.count v = (l.take n).count v + (l.drop n).count v := by
    conv_lhs => rw [← List.take_append_drop n l]
    exact List.count_append v _ _
  have h2 : l'.count v = (l'.take n).count v + (l'.drop n).count v := by
    conv_lhs => rw [← List.take_append_drop n l']
    exact List.count_append v _ _
  have h3 : l.count v = l'.count v := List.perm_iff_count.mp hp v
  rw [ht] at h1
  omega

theorem take_perm_of_drop_eq {l l' : List Flt} {n : ℕ} (hp : List.Perm l l')
    (hd : l.drop n = l'.drop n) : List.Perm (l.take n) (l'.take n) := by
  apply List.perm_iff_count.mpr
  intro v
  have h1 : l.count v = (l.take n).count v + (l.drop n).count v := by
    conv_lhs => rw [← List.take_append_drop n l]
    exact List.count_append v _ _
  have h2 : l'.count v = (l'.take n).count v + (l'.drop n).count v := by
    conv_lhs => rw [← List.take_append_drop n l']
    exact List.count_append v _ _
  have h3 : l.count v = l'.count v := List.perm_iff_count.mp hp v
  rw [hd] at h1
  omega

theorem partLoop_basic (pivot : Flt) :
    ∀ (f : ℕ) (xs : List Flt) (i j : ℕ),
      (partLoop pivot f xs i j).1.length = xs.length ∧
        i ≤ (partLoop pivot f xs i j).2 ∧ (partLoop pivot f xs i j).2 ≤ i + f := by
  intro f
  induction f with
  | zero => intro xs i j; exact ⟨rfl, Nat.le_refl i, Nat.le_refl i⟩
  | succ f ih =>
    intro xs i j
    simp only [partLoop]
    by_cases h : Flt.lt (xs.getD j Flt.nan) pivot = true
    · rw [if_pos h]
      rcases ih (swapL xs i j) (i + 1) (j + 1) with ⟨h1, h2, h3⟩
      rw [swapL_length] at h1
      exact ⟨h1, by omega, by omega⟩
    · rw [if_neg h]
      rcases ih xs i (j + 1) with ⟨h1, h2, h3⟩
      exact ⟨h1, by omega, by omega⟩

theorem partitionGo_basic {xs : List Flt} {low high : ℕ} (hlh : low ≤ high) :
    (partitionGo xs low high).1.length = xs.length ∧
      low ≤ (partitionGo xs low high).2 ∧ (partitionGo xs low high).2 ≤ high := by
  rcases partLoop_basic (xs.getD high Flt.nan) (high - low) xs low low with ⟨h1, h2, h3⟩
  simp only [partitionGo]
  rw [swapL_length]
  exact ⟨h1, h2, by omega⟩

theorem qsLoop_some (draws : ℕ → ℕ) (k : ℕ) :
    ∀ (fuel : ℕ) (xs : List Flt) (low high t : ℕ),
      low ≤ k → k ≤ high → high < xs.length → high + 1 - low ≤ fuel →
      (qsLoop draws k fuel xs low high t).isSome = true := by
  intro fuel
  induction fuel with
  | zero => intro xs low high t h1 h2 h3 h4; omega
  | succ f ih =>
    intro xs low high t h1 h2 h3 h4
    have hlh : low ≤ high := by omega
    simp only [qsLoop, if_pos hlh]
    have hys : (swapL xs (draws t % (high - low + 1) + low) high).length = xs.length :=
      swapL_length xs _ high
    rcases @partitionGo_basic (swapL xs (draws t % (high - low + 1) + low) high) low high hlh
      with ⟨hlen, hp1, hp2⟩
    by_cases hpk : (partitionGo (swapL xs (draws t % (high - low + 1) + low) high) low high).2 = k
    · rw [if_pos hpk]; rfl
    · rw [if_neg hpk]
      by_cases hplt : (partitionGo (swapL xs (draws t % (high - low + 1) + low) high) low high).2 < k
      · rw [if_pos hplt]
        exact ih _ _ high (t + 1) (by omega) h2 (by omega) (by omega)
      · rw [if_neg hplt]
        exact ih _ low _ (t + 1) h1 (by omega) (by omega) (by omega)

theorem take_eq_of_pointwise {l l' : List Flt} (hlen : l.length = l'.length) (n : ℕ)
    (h : ∀ m, m < n → l.getD m Flt.nan = l'.getD m Flt.nan) : l.take n = l'.take n := by
  apply List.ext_getElem
  · simp [List.length_take, hlen]
  · intro m h1 h2
    have hm : m < n ∧ m < l.length := by
      simp only [List.length_take] at h1; omega
    rw [List.getElem_take l, List.getElem_take l']
    have := h m hm.1
    rwa [List.getD_eq_getElem l Flt.nan hm.2,
      List.getD_eq_getElem l' Flt.nan (by omega)] at this

theorem drop_eq_of_pointwise {l l' : List Flt} (hlen : l.length = l'.length) (n : ℕ)
    (h : ∀ m, n ≤ m → m < l.length → l.getD m Flt.nan = l'.getD m Flt.nan) :
    l.drop n = l'.drop n := by
  apply List.ext_getElem
  · simp [List.length_drop, hlen]
  · intro m h1 h2
    have hm : n + m < l.length := by
      simp only [List.length_drop] at h1; omega
    rw [List.getElem_drop l, List.getElem_drop l']
    have := h (n + m) (Nat.le_add_right _ _) hm
    rwa [List.getD_eq_getElem l Flt.nan hm,
      List.getD_eq_getElem l' Flt.nan (by omega)] at this

theorem swapL_take_eq {xs : List Flt} {i j n : ℕ} (hni : n ≤ i) (hnj : n ≤ j) :
    (swapL xs i j).take n = xs.take n := by
  apply take_eq_of_pointwise (swapL_length xs i j) n
  intro m hm
  exact swapL_getD_ne (by omega) (by omega)

theorem swapL_drop_eq {xs : List Flt} {i j n : ℕ} (hni : i < n) (hnj : j < n) :
    (swapL xs i j).drop n = xs.drop n := by
  apply drop_eq_of_pointwise (swapL_length xs i j) n
  intro m hm _
  exact swapL_getD_ne (by omega) (by omega)

theorem partLoop_spec (pivot : Flt) :
    ∀ (f : ℕ) (xs : List Flt) (i j : ℕ),
      i ≤ j → j + f ≤ xs.length →
      (∀ m, i ≤ m → m < j → Flt.lt (xs.getD m Flt.nan) pivot = false) →
      List.Perm (partLoop pivot f xs i j).1 xs ∧
        (partLoop pivot f xs i j).1.take i = xs.take i ∧
        (partLoop pivot f xs i j).1.drop (j + f) = xs.drop (j + f) ∧
        (∀ m, i ≤ m → m < (partLoop pivot f xs i j).2 →
          Flt.lt ((partLoop pivot f xs i j).1.getD m Flt.nan) pivot = true) ∧
        (∀ m, (partLoop pivot f xs i j).2 ≤ m → m < j + f →
          Flt.lt ((partLoop pivot f xs i j).1.getD m Flt.nan) pivot = false) := by
  intro f
  induction f with
  | zero =>
    intro xs i j hij hlen h1
    refine ⟨List.Perm.refl _, rfl, rfl, ?_, ?_⟩
    · intro m hm1 hm2
      simp only [partLoop] at hm2
      omega
    · intro m hm1 hm2
      simp only [partLoop] at hm1
      exact h1 m (by omega) (by omega)
  | succ f ih =>
    intro xs i j hij hlen h1
    have hjlen : j < xs.length := by omega
    have hilen : i < xs.length := by omega
    simp only [partLoop]
    by_cases hc : Flt.lt (xs.getD j Flt.nan) pivot = true
    · rw [if_pos hc]
      have hrec := ih (swapL xs i j) (i + 1) (j + 1) (by omega)
        (by rw [swapL_length]; omega) ?_
      · rcases hrec with ⟨P, T, D, RL, RG⟩
        have hidx : j + 1 + f = j + (f + 1) := by omega
        rw [hidx] at D RG
        refine ⟨P.trans (swapL_perm hilen hjlen), ?_, ?_, ?_, ?_⟩
        · have hT : (partLoop pivot f (swapL xs i j) (i + 1) (j + 1)).1.take i
              = ((partLoop pivot f (swapL xs i j) (i + 1) (j + 1)).1.take (i + 1)).take i := by
            rw [List.take_take]
            congr 1
            omega
          rw [hT, T, List.take_take]
          have hmin : min i (i + 1) = i := by omega
          rw [hmin]
          exact swapL_take_eq (Nat.le_refl i) (by omega)
        · rw [D]
          exact swapL_drop_eq (by omega) (by omega)
        · intro m hm1 hm2
          by_cases hmi : m = i
          · have hgot : (partLoop pivot f (swapL xs i j) (i + 1) (j + 1)).1.getD m Flt.nan
                = (swapL xs i j).getD m Flt.nan :=
              take_eq_pointwise T (by omega)
            rw [hgot, hmi, swapL_getD_fst hilen hjlen]
            exact hc
          · exact RL m (by omega) hm2
        · intro m hm1 hm2
          exact RG m hm1 hm2
      · intro m hm1 hm2
        by_cases hmj : m = j
        · have hij2 : i < j := by omega
          subst hmj
          rw [swapL_getD_snd hjlen]
          exact h1 i (Nat.le_refl i) hij2
        · rw [swapL_getD_ne (by omega) hmj]
          exact h1 m (by omega) (by omega)
    · rw [if_neg hc]
      have hrec := ih xs i (j + 1) (by omega) (by omega) ?_
      · rcases hrec with ⟨P, T, D, RL, RG⟩
        have hidx : j + 1 + f = j + (f + 1) := by omega
        rw [hidx] at D RG
        exact ⟨P, T, D, RL, RG⟩
      · intro m hm1 hm2
        by_cases hmj : m = j
        · subst hmj
          exact Bool.eq_false_iff.mpr hc
        · exact h1 m hm1 (by omega)

theorem partitionGo_spec {xs : List Flt} {low high : ℕ} (hlh : low ≤ high)
    (hhl : high < xs.length) :
    List.Perm (partitionGo xs low high).1 xs ∧
      (partitionGo xs low high).1.take low = xs.take low ∧
      (partitionGo xs low high).1.drop (high + 1) = xs.drop (high + 1) ∧
      (partitionGo xs low high).1.getD (partitionGo xs low high).2 Flt.nan
        = xs.getD high Flt.nan ∧
      (∀ m, low ≤ m → m < (partitionGo xs low high).2 →
        Flt.lt ((partitionGo xs low high).1.getD m Flt.nan) (xs.getD high Flt.nan) = true) ∧
      (∀ m, (partitionGo xs low high).2 < m → m ≤ high →
        Flt.lt ((partitionGo xs low high).1.getD m Flt.nan) (xs.getD high Flt.nan) = false) := by
  have hspec := partLoop_spec (xs.getD high Flt.nan) (high - low) xs low low
    (Nat.le_refl low) (by omega) (by intro m hm1 hm2; omega)
  have hbasic := partLoop_basic (xs.getD high Flt.nan) (high - low) xs low low
  rcases hspec with ⟨P, T, D, RL, RG⟩
  rcases hbasic with ⟨hlen, hp1, hp2⟩
  have hidx : low + (high - low) = high := by omega
  rw [hidx] at D RG
  have hp3 : (partLoop (xs.getD high Flt.nan) (high - low) xs low low).2 ≤ high := by omega
  have hplen : (partLoop (xs.getD high Flt.nan) (high - low) xs low low).2
      < (partLoop (xs.getD high Flt.nan) (high - low) xs low low).1.length := by omega
  have hhlen : high < (partLoop (xs.getD high Flt.nan) (high - low) xs low low).1.length := by
    omega
  simp only [partitionGo]
  refine ⟨(swapL_perm hplen hhlen).trans P, ?_, ?_, ?_, ?_, ?_⟩
  · rw [swapL_take_eq hp1 hlh]
    exact T
  · rw [swapL_drop_eq (by omega) (by omega)]
    have := congrArg (List.drop 1) D
    rw [List.drop_drop, List.drop_drop] at this
    exact this
  · rw [swapL_getD_fst hplen hhlen]
    exact drop_eq_pointwise D (by omega) (Nat.le_refl high)
  · intro m hm1 hm2
    rw [swapL_getD_ne (by omega) (by omega)]
    exact RL m hm1 hm2
  · intro m hm1 hm2
    by_cases hmh : m = high
    · by_cases hph : (partLoop (xs.getD high Flt.nan) (high - low) xs low low).2 = high
      · omega
      · rw [hmh, swapL_getD_snd hhlen]
        exact RG _ (Nat.le_refl _) (by omega)
    · rw [swapL_getD_ne (by omega) hmh]
      exact RG m (by omega) (by omega)

/-- no element of the list is NaN. -/
def noNaN (l : List Flt) : Prop := ∀ x ∈ l, x ≠ Flt.nan

instance (l : List Flt) : Decidable (noNaN l) := by
  unfold noNaN
  infer_instance

theorem noNaN_of_perm {l l' : List Flt} (h : List.Perm l l') (hn : noNaN l) : noNaN l' :=
  fun x hx => hn x (h.mem_iff.mpr hx)

theorem noNaN_getD {l : List Flt} (hn : noNaN l) {m : ℕ} (hm : m < l.length) :
    l.getD m Flt.nan ≠ Flt.nan :=
  hn _ (getD_mem hm)

theorem leGo_refl (a : Flt) : leGo a a := ltGo_irrefl a

theorem leGo_trans {a b c : Flt} (h1 : leGo a b) (h2 : leGo b c) : leGo a c :=
  IsTrans.trans a b c h1 h2

theorem leGo_of_lt {a b : Flt} (h : Flt.lt a b = true) : leGo a b := by
  cases a <;> cases b <;>
    simp_all [leGo, ltGo, Flt.lt, Flt.isNaN] <;> linarith

theorem leGo_of_not_lt {a b : Flt} (ha : a ≠ Flt.nan) (hb : b ≠ Flt.nan)
    (h : Flt.lt b a = false) : leGo a b := by
  cases a <;> cases b <;>
    simp_all [leGo, ltGo, Flt.lt, Flt.isNaN] <;> linarith

theorem clauses_transport {xs zs : List Flt} {low high : ℕ}
    (hperm : List.Perm zs xs) (hT : zs.take low = xs.take low)
    (hD : zs.drop (high + 1) = xs.drop (high + 1))
    (hCL : ∀ m, m < low → ∀ v ∈ xs.drop low, leGo (xs.getD m Flt.nan) v)
    (hCR : ∀ m, high < m → m < xs.length →
      ∀ v ∈ xs.take (high + 1), leGo v (xs.getD m Flt.nan)) :
    (∀ m, m < low → ∀ v ∈ zs.drop low, leGo (zs.getD m Flt.nan) v) ∧
      (∀ m, high < m → m < zs.length →
        ∀ v ∈ zs.take (high + 1), leGo v (zs.getD m Flt.nan)) := by
  have hlen : zs.length = xs.length := hperm.length_eq
  constructor
  · intro m hm v hv
    rw [take_eq_pointwise hT hm]
    have hdp : List.Perm (zs.drop low) (xs.drop low) := drop_perm_of_take_eq hperm hT
    exact hCL m hm v (hdp.mem_iff.mp hv)
  · intro m hm1 hm2 v hv
    rw [drop_eq_pointwise hD hlen (by omega)]
    have htp : List.Perm (zs.take (high + 1)) (xs.take (high + 1)) :=
      take_perm_of_drop_eq hperm hD
    exact hCR m hm1 (by omega) v (htp.mem_iff.mp hv)

theorem qsLoop_correct (draws : ℕ → ℕ) (k : ℕ) :
    ∀ (fuel : ℕ) (xs : List Flt) (low high t : ℕ),
      low ≤ k → k ≤ high → high < xs.length → high + 1 - low ≤ fuel →
      noNaN xs →
      (∀ m, m < low → ∀ v ∈ xs.drop low, leGo (xs.getD m Flt.nan) v) →
      (∀ m, high < m → m < xs.length →
        ∀ v ∈ xs.take (high + 1), leGo v (xs.getD m Flt.nan)) →
      ∃ ys, qsLoop draws k fuel xs low high t = some (ys, ys.getD k Flt.nan) ∧
        List.Perm ys xs ∧
        (∀ m, m < k → leGo (ys.getD m Flt.nan) (ys.getD k Flt.nan)) ∧
        (∀ m, k < m → m < ys.length → leGo (ys.getD k Flt.nan) (ys.getD m Flt.nan)) := by
  intro fuel
  induction fuel with
  | zero => intro xs low high t h1 h2 h3 h4 _ _ _; omega
  | succ f ih =>
    intro xs low high t hlk hkh hhl hfuel hnn hCL hCR
    have hlh : low ≤ high := by omega
    simp only [qsLoop, if_pos hlh]
    have hpivle : draws t % (high - low + 1) + low ≤ high := by
      have := @Nat.mod_lt (draws t) (high - low + 1) (by omega)
      omega
    set ys0 := swapL xs (draws t % (high - low + 1) + low) high with hys0def
    have hys0len : ys0.length = xs.length := swapL_length xs _ high
    have hys0perm : List.Perm ys0 xs := swapL_perm (by omega) hhl
    have hys0T : ys0.take low = xs.take low := swapL_take_eq (by omega) hlh
    have hys0D : ys0.drop (high + 1) = xs.drop (high + 1) :=
      swapL_drop_eq (by omega) (by omega)
    have hys0nn : noNaN ys0 := noNaN_of_perm hys0perm.symm hnn
    rcases clauses_transport hys0perm hys0T hys0D hCL hCR with ⟨hCL0, hCR0⟩
    have hhy : high < ys0.length := by omega
    rcases partitionGo_spec hlh hhy with ⟨P, T, D, hpiv, RL, RG⟩
    rcases @partitionGo_basic ys0 low high hlh with ⟨hzlen0, hp1, hp2⟩
    set pr := partitionGo ys0 low high with hprdef
    have hzlen : pr.1.length = xs.length := by omega
    have hzperm : List.Perm pr.1 xs := P.trans hys0perm
    have hznn : noNaN pr.1 := noNaN_of_perm hzperm.symm hnn
    rcases clauses_transport P T D hCL0 hCR0 with ⟨hCLz, hCRz⟩
    have hpivnn : ys0.getD high Flt.nan ≠ Flt.nan := noNaN_getD hys0nn hhy
    by_cases hpk : pr.2 = k
    · rw [if_pos hpk]
      refine ⟨pr.1, rfl, hzperm, ?_, ?_⟩
      · intro m hm
        have hkz : k < pr.1.length := by omega
        by_cases hml : m < low
        · exact hCLz m hml _ (index_mem_drop (by omega) hkz)
        · have hlt := RL m (by omega) (by omega)
          have h1 : leGo (pr.1.getD m Flt.nan) (ys0.getD high Flt.nan) := leGo_of_lt hlt
          rw [hpk] at hpiv
          rw [hpiv]
          exact h1
      · intro m hm1 hm2
        by_cases hmh : m ≤ high
        · have hge := RG m (by omega) hmh
          rw [hpk] at hpiv
          rw [hpiv]
          exact leGo_of_not_lt hpivnn (noNaN_getD hznn (by omega)) hge
        · have hkz : k < pr.1.length := by omega
          exact hCRz m (by omega) (by omega) _ (index_mem_take (by omega) hkz)
    · rw [if_neg hpk]
      have hpivz : pr.1.getD pr.2 Flt.nan = ys0.getD high Flt.nan := hpiv
      by_cases hplt : pr.2 < k
      · rw [if_pos hplt]
        have hCLnew : ∀ m, m < pr.2 + 1 → ∀ v ∈ pr.1.drop (pr.2 + 1),
            leGo (pr.1.getD m Flt.nan) v := by
          intro m hm v hv
          rcases mem_index_drop hv with ⟨mv, hmv1, hmv2, hmv3⟩
          by_cases hml : m < low
          · exact hCLz m hml v (hmv3 ▸ index_mem_drop (by omega) hmv2)
          · have hpv : leGo (ys0.getD high Flt.nan) v := by
              by_cases hmvh : mv ≤ high
              · have hge := RG mv (by omega) hmvh
                rw [← hmv3]
                exact leGo_of_not_lt hpivnn (noNaN_getD hznn hmv2) hge
              · rw [← hpivz, ← hmv3]
                exact hCRz mv (by omega) (by omega) _ (index_mem_take (by omega) (by omega))
            by_cases hmp : m = pr.2
            · rw [hmp, hpivz]
              exact hpv
            · have hlt := RL m (by omega) (by omega)
              exact leGo_trans (leGo_of_lt hlt) hpv
        rcases ih pr.1 (pr.2 + 1) high (t + 1) (by omega) hkh (by omega) (by omega)
          hznn hCLnew hCRz with ⟨ys, heq, hperm, hL, hR⟩
        exact ⟨ys, heq, hperm.trans hzperm, hL, hR⟩
      · rw [if_neg hplt]
        have hpk2 : k < pr.2 := by omega
        have hCRnew : ∀ m, pr.2 - 1 < m → m < pr.1.length →
            ∀ v ∈ pr.1.take (pr.2 - 1 + 1), leGo v (pr.1.getD m Flt.nan) := by
          intro m hm1 hm2 v hv
          have hp0 : 1 ≤ pr.2 := by omega
          have hpe : pr.2 - 1 + 1 = pr.2 := by omega
          rw [hpe] at hv
          rcases mem_index_take hv with ⟨mv, hmv1, hmv2, hmv3⟩
          by_cases hmvl : mv < low
          · rw [← hmv3]
            exact hCLz mv hmvl _ (index_mem_drop (by omega) hm2)
          · have hvp : leGo v (ys0.getD high Flt.nan) := by
              rw [← hmv3]
              exact leGo_of_lt (RL mv (by omega) (by omega))
            by_cases hmp : m = pr.2
            · rw [hmp, hpivz]
              exact hvp
            · by_cases hmh : m ≤ high
              · have hge := RG m (by omega) hmh
                exact leGo_trans hvp
                  (leGo_of_not_lt hpivnn (noNaN_getD hznn (by omega)) hge)
              · rw [← hmv3]
                exact hCRz m (by omega) (by omega) _ (index_mem_take (by omega) (by omega))
        rcases ih pr.1 low (pr.2 - 1) (t + 1) hlk (by omega) (by omega) (by omega)
          hznn hCLz hCRnew with ⟨ys, heq, hperm, hL, hR⟩
        exact ⟨ys, heq, hperm.trans hzperm, hL, hR⟩


theorem sortGo_perm (l : List Flt) : List.Perm (sortGo l) l := List.perm_insertionSort leGo l

theorem sortGo_sorted (l : List Flt) : List.Sorted leGo (sortGo l) :=
  List.sorted_insertionSort leGo l

theorem sortGo_congr {l l' : List Flt} (h : List.Perm l l') : sortGo l = sortGo l' :=
  List.eq_of_perm_of_sorted ((sortGo_perm l).trans (h.trans (sortGo_perm l').symm))
    (sortGo_sorted l) (sortGo_sorted l')

theorem sortGo_length (l : List Flt) : (sortGo l).length = l.length :=
  (sortGo_perm l).length_eq

theorem sortGo_getD_of_sandwich {l : List Flt} {k : ℕ} (hk : k < l.length)
    (hL : ∀ m, m < k → leGo (l.getD m Flt.nan) (l.getD k Flt.nan))
    (hR : ∀ m, k < m → m < l.length → leGo (l.getD k Flt.nan) (l.getD m Flt.nan)) :
    (sortGo l).getD k Flt.nan = l.getD k Flt.nan := by
  have hdec : l = l.take k ++ l.getD k Flt.nan :: l.drop (k + 1) := by
    rw [List.getD_eq_getElem l Flt.nan hk]
    conv_lhs => rw [← List.take_append_drop k l]
    congr 1
    exact List.drop_eq_getElem_cons hk
  have hCperm :
      List.Perm (sortGo (l.take k) ++ l.getD k Flt.nan :: sortGo (l.drop (k + 1))) l := by
    conv_rhs => rw [hdec]
    exact List.Perm.append (sortGo_perm _) ((sortGo_perm _).cons _)
  have hCsorted :
      List.Sorted leGo (sortGo (l.take k) ++ l.getD k Flt.nan :: sortGo (l.drop (k + 1))) := by
    apply List.pairwise_append.mpr
    refine ⟨sortGo_sorted _, ?_, ?_⟩
    · apply List.sorted_cons.mpr
      constructor
      · intro b hb
        rcases mem_index_drop ((sortGo_perm _).mem_iff.mp hb) with ⟨m, hm1, hm2, hm3⟩
        rw [← hm3]
        exact hR m (by omega) hm2
      · exact sortGo_sorted _
    · intro a ha b hb
      rcases mem_index_take ((sortGo_perm _).mem_iff.mp ha) with ⟨m, hm1, hm2, hm3⟩
      have hav : leGo a (l.getD k Flt.nan) := by
        rw [← hm3]
        exact hL m hm1
      rcases List.mem_cons.mp hb with hb' | hb'
      · rw [hb']
        exact hav
      · rcases mem_index_drop ((sortGo_perm _).mem_iff.mp hb') with ⟨m2, hm21, hm22, hm23⟩
        refine leGo_trans hav ?_
        rw [← hm23]
        exact hR m2 (by omega) hm22
  have hEq : sortGo l = sortGo (l.take k) ++ l.getD k Flt.nan :: sortGo (l.drop (k + 1)) :=
    List.eq_of_perm_of_sorted ((sortGo_perm l).trans hCperm.symm) (sortGo_sorted l) hCsorted
  rw [hEq]
  have hlen1 : (sortGo (l.take k)).length = k := by
    rw [sortGo_length, List.length_take]
    omega
  rw [List.getD_append_right _ _ _ _ (by omega), hlen1, Nat.sub_self]
  rfl

theorem quickselect_correct {xs : List Flt} (hnn : noNaN xs) {k : ℕ} (hk : k < xs.length)
    (draws : ℕ → ℕ) : quickselect draws xs k = (sortGo xs).getD k Flt.nan := by
  have hne : ¬ xs.length = 0 := by omega
  rcases qsLoop_correct draws k xs.length xs 0 (xs.length - 1) 0 (by omega) (by omega)
    (by omega) (by omega) hnn
    (by intro m hm; exact absurd hm (Nat.not_lt_zero m))
    (by intro m hm1 hm2; omega)
    with ⟨ys, heq, hperm, hL, hR⟩
  unfold quickselect
  rw [if_neg hne, if_neg (by omega), heq]
  have hkys : k < ys.length := by
    rw [hperm.length_eq]
    omega
  have hchar := sortGo_getD_of_sandwich hkys hL hR
  rw [← sortGo_congr hperm, ← hchar]

theorem quickMedian_correct {xs : List Flt} (hnn : noNaN xs) (hne : xs ≠ [])
    (draws : ℕ → ℕ) :
    QuickMedian draws xs = (sortGo xs).getD (xs.length / 2) Flt.nan := by
  have hlen : ¬ xs.length = 0 := by
    intro h
    exact hne (List.length_eq_zero.mp h)
  unfold QuickMedian
  rw [if_neg hlen]
  exact quickselect_correct hnn (by omega) draws


theorem uint64_lt (g : DPRNG) : (DPRNG.Uint64 g).2 < U64 := by
  apply Nat.mod_lt
  norm_num [U64]

theorem uint32N_lt {g : DPRNG} {n : ℕ} (hn : 1 ≤ n) : (DPRNG.UInt32N g n).2 < n := by
  have hval : (DPRNG.UInt32N g n).2 = (DPRNG.Uint64 g).2 * (n % 2 ^ 32) / U64 := rfl
  rw [hval]
  by_cases hm : n % 2 ^ 32 = 0
  · rw [hm, Nat.mul_zero, Nat.zero_div]
    omega
  · have h1 : (DPRNG.Uint64 g).2 < U64 := uint64_lt g
    have h2 : (DPRNG.Uint64 g).2 * (n % 2 ^ 32) < U64 * (n % 2 ^ 32) :=
      Nat.mul_lt_mul_of_lt_of_le h1 (Nat.le_refl _) (by omega)
    have h3 : (DPRNG.Uint64 g).2 * (n % 2 ^ 32) / U64 < n % 2 ^ 32 :=
      Nat.div_lt_of_lt_mul h2
    have h4 : n % 2 ^ 32 ≤ n := Nat.mod_le n _
    omega

theorem dsampleLoop_length (xs : List Flt) (n : ℕ) :
    ∀ (m : ℕ) (g : DPRNG), (dsampleLoop xs n m g).length = m := by
  intro m
  induction m with
  | zero => intro g; rfl
  | succ m ih =>
    intro g
    simp only [dsampleLoop, List.length_cons]
    rw [ih]

theorem dsampleLoop_mem {xs : List Flt} {n : ℕ} (h1 : 1 ≤ n) :
    ∀ (m : ℕ) (g : DPRNG), ∀ y ∈ dsampleLoop xs n m g,
      ∃ j, j < n ∧ y = xs.getD j Flt.nan := by
  intro m
  induction m with
  | zero => intro g y hy; exact absurd hy (List.not_mem_nil y)
  | succ m ih =>
    intro g y hy
    simp only [dsampleLoop, List.mem_cons] at hy
    rcases hy with hy | hy
    · exact ⟨(DPRNG.UInt32N g n).2, uint32N_lt h1, hy⟩
    · exact ih _ y hy

theorem bootstrapSample_length (κ : ℕ → ℕ) (xs : List Flt) (sd : ℕ) :
    (bootstrapSample κ xs sd).length = xs.length := by
  unfold bootstrapSample
  by_cases h0 : xs.length = 0
  · rw [if_pos h0, h0]
    rfl
  · rw [if_neg h0]
    by_cases hs : sd ≠ 0
    · rw [if_pos hs]
      exact dsampleLoop_length xs xs.length xs.length (mkDPRNG sd)
    · rw [if_neg hs]
      simp

theorem bootstrapSample_mem (κ : ℕ → ℕ) (xs : List Flt) (sd : ℕ)
    (hκ : sd = 0 → ∀ i, κ i < xs.length) :
    ∀ y ∈ bootstrapSample κ xs sd, ∃ j, j < xs.length ∧ y = xs.getD j Flt.nan := by
  unfold bootstrapSample
  by_cases h0 : xs.length = 0
  · rw [if_pos h0]
    intro y hy
    exact absurd hy (List.not_mem_nil y)
  · rw [if_neg h0]
    by_cases hs : sd ≠ 0
    · rw [if_pos hs]
      exact dsampleLoop_mem (by omega) xs.length (mkDPRNG sd)
    · rw [if_neg hs]
      intro y hy
      rcases List.mem_map.mp hy with ⟨i, _, hyi⟩
      have hsz : sd = 0 := by omega
      exact ⟨κ i, hκ hsz i, hyi.symm⟩

theorem bootstrapSample_det (κ1 κ2 : ℕ → ℕ) (xs : List Flt) (sd : ℕ) (h : sd ≠ 0) :
    bootstrapSample κ1 xs sd = bootstrapSample κ2 xs sd := by
  unfold bootstrapSample
  by_cases h0 : xs.length = 0
  · rw [if_pos h0, if_pos h0]
  · rw [if_neg h0, if_neg h0, if_pos h, if_pos h]

theorem bootstrapSample_ne_nil {κ : ℕ → ℕ} {xs : List Flt} {sd : ℕ} (h : xs ≠ []) :
    bootstrapSample κ xs sd ≠ [] := by
  intro hc
  have h1 := bootstrapSample_length κ xs sd
  rw [hc] at h1
  exact h (List.length_eq_zero.mp h1.symm)

theorem bootstrapSample_noNaN {κ : ℕ → ℕ} {xs : List Flt} {sd : ℕ} (hnn : noNaN xs)
    (hκ : sd = 0 → ∀ i, κ i < xs.length) : noNaN (bootstrapSample κ xs sd) := by
  intro y hy
  rcases bootstrapSample_mem κ xs sd hκ y hy with ⟨j, hj, hyj⟩
  rw [hyj]
  exact noNaN_getD hnn hj

theorem quickMedian_nil (draws : ℕ → ℕ) : QuickMedian draws [] = Flt.nan := by
  unfold QuickMedian
  simp

theorem quickMedian_const {xs : List Flt} (hne : xs ≠ []) {c : Flt} (hc : c ≠ Flt.nan)
    (hall : ∀ x ∈ xs, x = c) (draws : ℕ → ℕ) : QuickMedian draws xs = c := by
  have hnn : noNaN xs := by
    intro x hx
    rw [hall x hx]
    exact hc
  rw [quickMedian_correct hnn hne draws]
  have hlen : xs.length ≠ 0 := by
    intro h
    exact hne (List.length_eq_zero.mp h)
  have hidx : xs.length / 2 < (sortGo xs).length := by
    rw [sortGo_length]
    omega
  have hmem : (sortGo xs).getD (xs.length / 2) Flt.nan ∈ xs :=
    (sortGo_perm xs).mem_iff.mp (getD_mem hidx)
  exact hall _ hmem

theorem quickMedian_sample_const {A : List Flt} (hne : A ≠ []) {c : Flt} (hc : c ≠ Flt.nan)
    (hall : ∀ x ∈ A, x = c) (κ1 : ℕ → ℕ) (hκ1 : ∀ i, κ1 i < A.length) (sd : ℕ)
    (draws : ℕ → ℕ) : QuickMedian draws (bootstrapSample κ1 A sd) = c := by
  apply quickMedian_const (bootstrapSample_ne_nil hne) hc
  intro y hy
  rcases bootstrapSample_mem κ1 A sd (fun _ => hκ1) y hy with ⟨j, hj, hyj⟩
  rw [hyj]
  exact hall _ (getD_mem hj)

theorem deltaOf_self {c : Flt} (hc : c ≠ Flt.nan) : deltaOf c c = Flt.fin 0 := by
  cases c with
  | fin a => simp [deltaOf, Flt.isNaN, Flt.beq]
  | pinf => simp [deltaOf, Flt.isNaN, Flt.beq]
  | minf => simp [deltaOf, Flt.isNaN, Flt.beq]
  | nan => exact absurd rfl hc

theorem replicateDelta_const {A : List Flt} (hne : A ≠ []) {c : Flt} (hc : c ≠ Flt.nan)
    (hall : ∀ x ∈ A, x = c) (π κ : ℕ → ℕ → ℕ) (hκ : ∀ j i, κ j i < A.length)
    (s i : ℕ) : replicateDelta π κ A A s i = Flt.fin 0 := by
  by_cases hs : s = 0
  · simp only [replicateDelta, if_pos hs]
    rw [quickMedian_sample_const hne hc hall _ (hκ (2 * i)) 0,
      quickMedian_sample_const hne hc hall _ (hκ (2 * i + 1)) 0]
    exact deltaOf_self hc
  · simp only [replicateDelta, if_neg hs]
    rw [quickMedian_sample_const hne hc hall _ (hκ (2 * i)) _,
      quickMedian_sample_const hne hc hall _ (hκ (2 * i + 1)) _]
    exact deltaOf_self hc


theorem flt_ge_zero_pos {q : ℚ} (hq : 0 < q) : Flt.ge (Flt.fin 0) (Flt.fin q) = false := by
  simp only [Flt.ge, Flt.lt, Flt.beq, Bool.or_eq_false_iff]
  constructor
  · simpa using not_lt.mpr hq.le
  · simpa using hq.ne

theorem bumpCounts_pair_zero {q : ℚ} (hq : 0 < q) (m : Flt → ℕ) :
    bumpCounts [Flt.fin 0, Flt.fin q] (Flt.fin 0) m
      = fun u => if u = Flt.fin 0 then (m (Flt.fin 0) + 1) % 2 ^ 32 else m u := by
  have h1 : Flt.ge (Flt.fin 0) (Flt.fin 0) = true := by decide
  have h2 : Flt.ge (Flt.fin 0) (Flt.fin q) = false := flt_ge_zero_pos hq
  simp only [bumpCounts, List.foldl_cons, List.foldl_nil, h1, h2, if_true, if_false,
    Bool.false_eq_true, reduceIte]

theorem counts_const_zero {q : ℚ} (hq : 0 < q) (d : ℕ → Flt) (hd : ∀ i, d i = Flt.fin 0) :
    ∀ r : ℕ,
      (List.range r).foldl (fun mm i => bumpCounts [Flt.fin 0, Flt.fin q] (d i) mm)
          (fun _ => 0)
        = fun u => if u = Flt.fin 0 then r % 2 ^ 32 else 0 := by
  intro r
  induction r with
  | zero =>
    funext u
    simp only [List.range_zero, List.foldl_nil, Nat.zero_mod]
    by_cases hu : u = Flt.fin 0 <;> simp [hu]
  | succ r ih =>
    rw [List.range_succ, List.foldl_append, ih]
    simp only [List.foldl_cons, List.foldl_nil]
    rw [hd r, bumpCounts_pair_zero hq]
    funext u
    by_cases hu : u = Flt.fin 0
    · simp only [hu, if_true, eq_self_iff_true, reduceIte]
      rw [Nat.mod_add_mod]
    · simp [hu]

theorem foldl_bump_congr (gains : List Flt) (d1 d2 : ℕ → Flt) :
    ∀ (l : List ℕ), (∀ i ∈ l, d1 i = d2 i) → ∀ m : Flt → ℕ,
      l.foldl (fun mm i => bumpCounts gains (d1 i) mm) m
        = l.foldl (fun mm i => bumpCounts gains (d2 i) mm) m := by
  intro l
  induction l with
  | nil => intro _ _; rfl
  | cons a l ih =>
    intro h m
    simp only [List.foldl_cons]
    rw [h a (List.mem_cons_self a l)]
    exact ih (fun i hi => h i (List.mem_cons_of_mem a hi)) _

theorem seedIter_lt (s i : ℕ) : seedIter s i < 2 ^ 64 := by
  unfold seedIter U64
  exact Nat.mod_lt _ (by norm_num)

theorem seedA_ne_zero (s i : ℕ) : seedA s i ≠ 0 := by
  have h := seedIter_lt s i
  unfold seedA U64
  omega

theorem seedB_eq_zero_iff (s i : ℕ) :
    seedB s i = 0 ↔ seedIter s i % 2 ^ 63 = 2 ^ 63 - 1 := by
  have h := seedIter_lt s i
  unfold seedB U64
  omega

theorem seedA_ne_seedB (s i : ℕ) : seedA s i ≠ seedB s i := by
  have h := seedIter_lt s i
  unfold seedA seedB U64
  omega

theorem quickMedian_draws_congr {xs : List Flt} (hnn : noNaN xs) (d1 d2 : ℕ → ℕ) :
    QuickMedian d1 xs = QuickMedian d2 xs := by
  by_cases hne : xs = []
  · rw [hne, quickMedian_nil, quickMedian_nil]
  · rw [quickMedian_correct hnn hne d1, quickMedian_correct hnn hne d2]

theorem replicateDelta_det {A B : List Flt} (hA : noNaN A) (hB : noNaN B)
    (π π' κ κ' : ℕ → ℕ → ℕ) {s : ℕ} (hs : s ≠ 0) {i : ℕ}
    (hgood : seedIter s i % 2 ^ 63 ≠ 2 ^ 63 - 1) :
    replicateDelta π κ A B s i = replicateDelta π' κ' A B s i := by
  have hsa : seedA s i ≠ 0 := seedA_ne_zero s i
  have hsb : seedB s i ≠ 0 := fun h => hgood ((seedB_eq_zero_iff s i).mp h)
  simp only [replicateDelta, if_neg hs]
  rw [bootstrapSample_det (κ (2 * i)) (κ' (2 * i)) A _ hsa,
    bootstrapSample_det (κ (2 * i + 1)) (κ' (2 * i + 1)) B _ hsb]
  have hAnn : noNaN (bootstrapSample (κ' (2 * i)) A (seedA s i)) :=
    bootstrapSample_noNaN hA (fun h0 => absurd h0 hsa)
  have hBnn : noNaN (bootstrapSample (κ' (2 * i + 1)) B (seedB s i)) :=
    bootstrapSample_noNaN hB (fun h0 => absurd h0 hsb)
  rw [quickMedian_draws_congr hAnn (π (2 * i)) (π' (2 * i)),
    quickMedian_draws_congr hBnn (π (2 * i + 1)) (π' (2 * i + 1))]

theorem bootstrapConfidence_det {A B : List Flt} (hA : noNaN A) (hB : noNaN B)
    (gains : List Flt) (resamples : ℕ) {s : ℕ} (hs : s ≠ 0)
    (hgood : ∀ i, i < resamples → seedIter s i % 2 ^ 63 ≠ 2 ^ 63 - 1)
    (π π' κ κ' : ℕ → ℕ → ℕ) (t : Flt) :
    BootstrapConfidence π κ A B gains resamples s t
      = BootstrapConfidence π' κ' A B gains resamples s t := by
  unfold BootstrapConfidence
  by_cases hr : resamples = 0
  · rw [if_pos hr, if_pos hr]
  · rw [if_neg hr, if_neg hr]
    have hfold := foldl_bump_congr gains (fun i => replicateDelta π κ A B s i)
      (fun i => replicateDelta π' κ' A B s i) (List.range resamples)
      (fun i hi => replicateDelta_det hA hB π π' κ κ' hs (hgood i (List.mem_range.mp hi)))
      (fun _ => 0)
    simp only [hfold]


theorem replicateDelta_two_consts {A B : List Flt} (hA : A ≠ []) (hB : B ≠ [])
    {cA cB : Flt} (hcA : cA ≠ Flt.nan) (hcB : cB ≠ Flt.nan)
    (hallA : ∀ x ∈ A, x = cA) (hallB : ∀ x ∈ B, x = cB)
    (π κ : ℕ → ℕ → ℕ) (hκA : ∀ i k, κ (2 * i) k < A.length)
    (hκB : ∀ i k, κ (2 * i + 1) k < B.length) (s i : ℕ) :
    replicateDelta π κ A B s i = deltaOf cA cB := by
  by_cases hs : s = 0
  · simp only [replicateDelta, if_pos hs]
    rw [quickMedian_sample_const hA hcA hallA _ (hκA i) _,
      quickMedian_sample_const hB hcB hallB _ (hκB i) _]
  · simp only [replicateDelta, if_neg hs]
    rw [quickMedian_sample_const hA hcA hallA _ (hκA i) _,
      quickMedian_sample_const hB hcB hallB _ (hκB i) _]

theorem bumpCounts_single_neg {delta : Flt} (h : Flt.ge delta (Flt.fin 0) = false)
    (m : Flt → ℕ) : bumpCounts [Flt.fin 0] delta m = m := by
  simp only [bumpCounts, List.foldl_cons, List.foldl_nil, h, Bool.false_eq_true, reduceIte]

theorem delta_abs_zero : Flt.abs (Flt.fin 0) = Flt.fin 0 := by
  simp [Flt.abs]

theorem delta_mul_zero : Flt.mul (Flt.fin 0) relEps = Flt.fin 0 := by
  simp [Flt.mul, relEps]

theorem delta_lt_small : Flt.lt (Flt.fin 0) smallestNonzero = true := by
  simp only [Flt.lt, smallestNonzero, decide_eq_true_eq]
  norm_num

theorem delta_max_small : Flt.max (Flt.fin 0) smallestNonzero = smallestNonzero := by
  simp only [Flt.max, smallestNonzero]
  rw [if_pos]
  have := delta_lt_small
  simpa [smallestNonzero] using this

theorem delta_div_small : Flt.div (Flt.fin 100) smallestNonzero
    = Flt.fin (100 * 2 ^ 1074) := by
  have hne : ¬ ((1 : ℚ) / 2 ^ 1074 = 0) := by positivity
  have hval : (100 : ℚ) / (1 / 2 ^ 1074) = 100 * 2 ^ 1074 := by
    rw [div_div_eq_mul_div, div_one]
  show (if (1 : ℚ) / 2 ^ 1074 = 0 then
      (if (100 : ℚ) = 0 then Flt.nan else if (0 : ℚ) < 100 then Flt.pinf else Flt.minf)
    else Flt.fin (100 / (1 / 2 ^ 1074))) = Flt.fin (100 * 2 ^ 1074)
  rw [if_neg hne, hval]

theorem deltaOf_100_0 : deltaOf (Flt.fin 100) (Flt.fin 0)
    = Flt.fin (1 - 100 * 2 ^ 1074) := by
  simp only [deltaOf]
  rw [if_neg (by decide), if_neg (by decide)]
  rw [delta_abs_zero, delta_mul_zero, delta_max_small]
  rw [if_pos delta_lt_small, delta_div_small]
  simp [Flt.sub]

theorem deltaOf_100_0_neg : Flt.ge (deltaOf (Flt.fin 100) (Flt.fin 0)) (Flt.fin 0) = false := by
  rw [deltaOf_100_0]
  simp only [Flt.ge, Flt.lt, Flt.beq, Bool.or_eq_false_iff]
  constructor
  · simp only [decide_eq_false_iff_not]
    intro h
    have h100 : (0 : ℚ) < 100 * 2 ^ 1074 := by positivity
    linarith
  · simp only [beq_eq_false_iff_ne, ne_eq]
    intro h
    have h100 : (0 : ℚ) < 100 * 2 ^ 1074 := by positivity
    linarith

theorem bootstrapConfidence_hundred_zero {A B : List Flt} (hA : A ≠ []) (hB : B ≠ [])
    (hallA : ∀ x ∈ A, x = Flt.fin 100) (hallB : ∀ x ∈ B, x = Flt.fin 0)
    (π κ : ℕ → ℕ → ℕ) (hκA : ∀ i k, κ (2 * i) k < A.length)
    (hκB : ∀ i k, κ (2 * i + 1) k < B.length) (s : ℕ) :
    BootstrapConfidence π κ A B [Flt.fin 0] 1 s (Flt.fin 0) = Flt.fin 0 := by
  have hd : replicateDelta π κ A B s 0 = deltaOf (Flt.fin 100) (Flt.fin 0) :=
    replicateDelta_two_consts hA hB (by simp) (by simp) hallA hallB π κ hκA hκB s 0
  unfold BootstrapConfidence
  rw [if_neg one_ne_zero]
  have hrange : List.range 1 = [0] := rfl
  simp only [hrange, List.foldl_cons, List.foldl_nil]
  rw [hd, bumpCounts_single_neg deltaOf_100_0_neg]
  simp only [memGo, List.any_cons, List.any_nil, Bool.or_false]
  have hb : Flt.beq (Flt.fin 0) (Flt.fin 0) = true := by decide
  rw [hb]
  simp only [if_true, reduceIte]
  norm_num

theorem bootstrapConfidence_const {A : List Flt} (hne : A ≠ []) {c : Flt} (hc : c ≠ Flt.nan)
    (hall : ∀ x ∈ A, x = c) {q : ℚ} (hq : 0 < q) {r s : ℕ} (hr : 0 < r) (hr2 : r < 2 ^ 32)
    (π κ : ℕ → ℕ → ℕ) (hκ : ∀ j i, κ j i < A.length) :
    BootstrapConfidence π κ A A [Flt.fin 0, Flt.fin q] r s (Flt.fin 0) = Flt.fin 1 ∧
      BootstrapConfidence π κ A A [Flt.fin 0, Flt.fin q] r s (Flt.fin q) = Flt.fin 0 := by
  have hd : ∀ i, replicateDelta π κ A A s i = Flt.fin 0 :=
    replicateDelta_const hne hc hall π κ hκ s
  unfold BootstrapConfidence
  rw [if_neg (by omega)]
  rw [counts_const_zero hq _ hd r]
  have hmem0 : memGo [Flt.fin 0, Flt.fin q] (Flt.fin 0) = true := by
    simp only [memGo, List.any_cons, List.any_nil, Bool.or_false]
    have : Flt.beq (Flt.fin 0) (Flt.fin 0) = true := by decide
    rw [this]
    simp
  have hmemq : memGo [Flt.fin 0, Flt.fin q] (Flt.fin q) = true := by
    simp only [memGo, List.any_cons, List.any_nil, Bool.or_false]
    have : Flt.beq (Flt.fin q) (Flt.fin q) = true := by
      simp [Flt.beq]
    rw [this]
    simp
  constructor
  · rw [if_pos hmem0]
    simp only []
    rw [if_pos trivial, Nat.mod_eq_of_lt hr2]
    have hrq : (r : ℚ) ≠ 0 := Nat.cast_ne_zero.mpr (by omega)
    rw [div_self hrq]
  · rw [if_pos hmemq]
    simp only []
    have hqe : ¬ Flt.fin q = Flt.fin 0 := by
      simp only [Flt.fin.injEq]
      exact hq.ne'
    rw [if_neg hqe]
    norm_num


theorem delta_abs_two : Flt.abs (Flt.fin 2) = Flt.fin 2 := by
  simp only [Flt.abs]
  norm_num

theorem small_le_eps_two : (1 : ℚ) / 2 ^ 1074 ≤ 2 * (1 / 10 ^ 12) := by
  have h1 : (2 : ℚ) * (1 / 10 ^ 12) = 2 / 10 ^ 12 := by ring
  rw [h1, div_le_div_iff (by positivity) (by positivity)]
  have h2 : (10 : ℚ) ^ 12 ≤ 2 ^ 41 := by norm_num
  have h3 : (2 : ℚ) ^ 41 ≤ 2 ^ 1075 := by
    apply pow_le_pow_right (by norm_num) (by norm_num)
  have h4 : (2 : ℚ) ^ 1075 = 2 * 2 ^ 1074 := by
    rw [show (1075 : ℕ) = 1074 + 1 from rfl, pow_succ]
    ring
  linarith

theorem delta_eps_two :
    Flt.max (Flt.mul (Flt.abs (Flt.fin 2)) relEps) smallestNonzero
      = Flt.fin (2 * (1 / 10 ^ 12)) := by
  have habs : Flt.mul (Flt.abs (Flt.fin 2)) relEps = Flt.fin (2 * (1 / 10 ^ 12)) := by
    rw [delta_abs_two]
    rfl
  rw [habs]
  simp only [Flt.max, smallestNonzero]
  rw [if_neg]
  simp only [Flt.lt, decide_eq_true_eq, not_lt]
  exact small_le_eps_two

theorem deltaOf_3_2 : deltaOf (Flt.fin 3) (Flt.fin 2) = Flt.fin (1 - 3 / 2) := by
  simp only [deltaOf]
  rw [if_neg (by decide), if_neg (by decide), delta_eps_two, delta_abs_two]
  rw [if_neg]
  · have hdiv : Flt.div (Flt.fin 3) (Flt.fin 2) = Flt.fin (3 / 2) := by
      simp only [Flt.div]
      rw [if_neg (by norm_num)]
    rw [hdiv]
    rfl
  · simp only [Flt.lt, decide_eq_true_eq, not_lt]
    norm_num

theorem deltaOf_3_2_neg : Flt.ge (deltaOf (Flt.fin 3) (Flt.fin 2)) (Flt.fin 0) = false := by
  rw [deltaOf_3_2]
  simp only [Flt.ge, Flt.lt, Flt.beq, Bool.or_eq_false_iff]
  constructor
  · simp only [decide_eq_false_iff_not]
    norm_num
  · simp only [beq_eq_false_iff_ne, ne_eq]
    norm_num


/-- C1 (amended): for every pivot-draw stream, QuickMedian of a non-empty
NaN-free float64 sequence returns the element that ascending sorting
places at index n/2 (upper middle for even n), and QuickMedian of the
empty sequence returns NaN. The original claim, which quantified over
all float64 sequences including those containing NaN, is refuted by the
counterexample theorem. -/
theorem C1_quickmedian_sorted (draws : ℕ → ℕ) :
    (∀ xs : List Flt, noNaN xs → xs ≠ [] →
        QuickMedian draws xs = (sortGo xs).getD (xs.length / 2) Flt.nan) ∧
      QuickMedian draws [] = Flt.nan := by
  constructor
  · intro xs hnn hne
    exact quickMedian_correct hnn hne draws
  · exact quickMedian_nil draws

/-- C1 counterexample: on [NaN, 1.0] the element that Go sorting
(cmp.Less, NaN first) places at index 1 = len/2 is 1.0, yet with the
pivot-draw stream constantly 1 QuickMedian returns NaN (and with the
stream constantly 0 it returns 1.0), so the claim fails for sequences
containing NaN and the result is not even a function of the sequence
alone. -/
theorem C1_counterexample :
    QuickMedian (fun _ => 1) [Flt.nan, Flt.fin 1]
        ≠ (sortGo [Flt.nan, Flt.fin 1]).getD ([Flt.nan, Flt.fin 1].length / 2) Flt.nan ∧
      QuickMedian (fun _ => 0) [Flt.nan, Flt.fin 1]
        = (sortGo [Flt.nan, Flt.fin 1]).getD ([Flt.nan, Flt.fin 1].length / 2) Flt.nan := by
  constructor
  · decide
  · decide

/-- C1 witness: the amended theorem evaluated on the concrete NaN-free
sequence [3, 1, 2] with the constant-0 draw stream. -/
theorem C1_witness :
    QuickMedian (fun _ => 0) [Flt.fin 3, Flt.fin 1, Flt.fin 2]
      = (sortGo [Flt.fin 3, Flt.fin 1, Flt.fin 2]).getD
          ([Flt.fin 3, Flt.fin 1, Flt.fin 2].length / 2) Flt.nan :=
  (C1_quickmedian_sorted (fun _ => 0)).1 [Flt.fin 3, Flt.fin 1, Flt.fin 2]
    (by decide) (by decide)

/-- C2: the code violates the claim that every returned confidence lies
in [0,1]: with the duplicated threshold list [0.0, 0.0], identical
one-element populations, one resample and seed 1, the single replicate
has delta = 0, both occurrences of the key 0.0 bump the same counter,
and BootstrapConfidence returns confidence 2.0 for threshold 0.0. -/
theorem C2_duplicate_threshold_bug :
    BootstrapConfidence (fun _ _ => 0) (fun _ _ => 0) [Flt.fin 100] [Flt.fin 100]
      [Flt.fin 0, Flt.fin 0] 1 1 (Flt.fin 0) = Flt.fin 2 := by
  have hd : replicateDelta (fun _ _ => 0) (fun _ _ => 0) [Flt.fin 100] [Flt.fin 100] 1 0
      = Flt.fin 0 :=
    replicateDelta_const (show [Flt.fin 100] ≠ [] by decide)
      (show Flt.fin 100 ≠ Flt.nan by decide)
      (show ∀ x ∈ [Flt.fin 100], x = Flt.fin 100 by decide)
      (fun _ _ => 0) (fun _ _ => 0) (fun _ _ => by norm_num) 1 0
  unfold BootstrapConfidence
  rw [if_neg one_ne_zero]
  have hrange : List.range 1 = [0] := rfl
  simp only [hrange, List.foldl_cons, List.foldl_nil, hd]
  have hmem : memGo [Flt.fin 0, Flt.fin 0] (Flt.fin 0) = true := by decide
  rw [if_pos hmem]
  have hcnt : bumpCounts [Flt.fin 0, Flt.fin 0] (Flt.fin 0) (fun _ => 0) (Flt.fin 0) = 2 := by
    decide
  rw [hcnt]
  congr 1
  norm_num

/-- C3 (amended): for a non-zero base seed, seedA = 2(seed+i)+1 is always
non-zero and differs from seedB = 2(seed+i)+2, but seedB is zero exactly
when (seed+i) mod 2^64 is congruent to 2^63-1 modulo 2^63 (then that
replicate's B-sample falls back to the non-deterministic generator);
when no replicate index hits that case and the populations are NaN-free,
BootstrapConfidence is independent of all oracle streams, hence two
calls with identical arguments return identical results. -/
theorem C3_seed_derivation (prngSeed : ℕ) (hs : prngSeed ≠ 0) :
    (∀ i, seedA prngSeed i ≠ 0 ∧ seedA prngSeed i ≠ seedB prngSeed i) ∧
      (∀ i, seedB prngSeed i = 0 ↔ seedIter prngSeed i % 2 ^ 63 = 2 ^ 63 - 1) ∧
      (∀ (A B gains : List Flt) (resamples : ℕ), noNaN A → noNaN B →
        (∀ i, i < resamples → seedIter prngSeed i % 2 ^ 63 ≠ 2 ^ 63 - 1) →
        ∀ (π π' κ κ' : ℕ → ℕ → ℕ) (t : Flt),
          BootstrapConfidence π κ A B gains resamples prngSeed t
            = BootstrapConfidence π' κ' A B gains resamples prngSeed t) := by
  refine ⟨fun i => ⟨seedA_ne_zero _ i, seedA_ne_seedB _ i⟩,
    fun i => seedB_eq_zero_iff _ i, ?_⟩
  intro A B gains resamples hA hB hgood π π' κ κ' t
  exact bootstrapConfidence_det hA hB gains resamples hs hgood π π' κ κ' t

/-- C3 counterexample: with the non-zero base seed 2^63 - 1 and replicate
index 0, the derived seedB is 0, refuting the claim that both derived
per-replicate seeds are always non-zero (so this replicate samples B
from the non-deterministic generator). -/
theorem C3_counterexample :
    (2 ^ 63 - 1 : ℕ) ≠ 0 ∧ seedB (2 ^ 63 - 1) 0 = 0 := by
  constructor
  · decide
  · decide

/-- C3 witness: the determinism part of the amended theorem applied at
seed 5, one resample and two different oracle families. -/
theorem C3_witness :
    BootstrapConfidence (fun _ _ => 0) (fun _ _ => 1) [Flt.fin 1] [Flt.fin 2]
        [Flt.fin 0] 1 5 (Flt.fin 0)
      = BootstrapConfidence (fun _ _ => 3) (fun _ _ => 7) [Flt.fin 1] [Flt.fin 2]
        [Flt.fin 0] 1 5 (Flt.fin 0) :=
  (C3_seed_derivation 5 (by decide)).2.2 [Flt.fin 1] [Flt.fin 2] [Flt.fin 0] 1
    (by decide) (by decide)
    (fun i hi => by
      have hi0 : i = 0 := by omega
      rw [hi0]
      decide)
    _ _ _ _ _

/-- C4: with A all 100s and B all 0s, thresholds [0.0], one resample and
any seed (oracle draws in range), both medians are 100 and 0, the
epsilon branch substitutes eps = 2^-1074 as denominator, the resulting
delta = 1 - 100/eps is far below 0, and the returned confidence for
threshold 0.0 is 0.0. -/
theorem C4_eps_branch (A B : List Flt) (hA : A ≠ []) (hB : B ≠ [])
    (hallA : ∀ x ∈ A, x = Flt.fin 100) (hallB : ∀ x ∈ B, x = Flt.fin 0)
    (π κ : ℕ → ℕ → ℕ) (hκA : ∀ i k, κ (2 * i) k < A.length)
    (hκB : ∀ i k, κ (2 * i + 1) k < B.length) (s : ℕ) :
    BootstrapConfidence π κ A B [Flt.fin 0] 1 s (Flt.fin 0) = Flt.fin 0 ∧
      deltaOf (Flt.fin 100) (Flt.fin 0) = Flt.fin (1 - 100 * 2 ^ 1074) ∧
      Flt.lt (deltaOf (Flt.fin 100) (Flt.fin 0)) (Flt.fin 0) = true := by
  refine ⟨bootstrapConfidence_hundred_zero hA hB hallA hallB π κ hκA hκB s,
    deltaOf_100_0, ?_⟩
  rw [deltaOf_100_0]
  simp only [Flt.lt, decide_eq_true_eq]
  have hpow : (0 : ℚ) < 100 * 2 ^ 1074 := by positivity
  linarith

/-- C4 witness: the theorem evaluated at the singleton populations [100]
and [0] with seed 7 and the constant-0 CPRNG oracle. -/
theorem C4_witness :
    BootstrapConfidence (fun _ _ => 0) (fun _ _ => 0) [Flt.fin 100] [Flt.fin 0]
      [Flt.fin 0] 1 7 (Flt.fin 0) = Flt.fin 0 :=
  (C4_eps_branch [Flt.fin 100] [Flt.fin 0] (by decide) (by decide) (by decide) (by decide)
    (fun _ _ => 0) (fun _ _ => 0) (fun _ _ => by norm_num) (fun _ _ => by norm_num) 7).1

/-- C5 (amended): for every CONSTANT non-NaN population A (all elements
equal) used as both inputs, every 0 < resamples < 2^32 (the hit counters
are uint32 and would wrap at 2^32), every seed and in-range oracles,
BootstrapConfidence returns confidence 1.0 for threshold 0.0 and 0.0
for any strictly positive threshold. The original claim for arbitrary
elementwise-identical populations is refuted by the counterexample
theorem: with A = B non-constant the two samples of a replicate draw
from different seeds and their medians differ. -/
theorem C5_identical_constant (A : List Flt) (hne : A ≠ []) (c : Flt) (hc : c ≠ Flt.nan)
    (hall : ∀ x ∈ A, x = c) (q : ℚ) (hq : 0 < q) (r s : ℕ) (hr : 0 < r)
    (hr2 : r < 2 ^ 32) (π κ : ℕ → ℕ → ℕ) (hκ : ∀ j i, κ j i < A.length) :
    BootstrapConfidence π κ A A [Flt.fin 0, Flt.fin q] r s (Flt.fin 0) = Flt.fin 1 ∧
      BootstrapConfidence π κ A A [Flt.fin 0, Flt.fin q] r s (Flt.fin q) = Flt.fin 0 :=
  bootstrapConfidence_const hne hc hall hq hr hr2 π κ hκ

/-- C5 counterexample: A = B = [1, 2, 3] (elementwise identical but not
constant), threshold 0.0, one resample, seed 3: the replicate samples
A with derived seed 7 giving median 3 and B with derived seed 8 giving
median 2, delta = 1 - 3/2 < 0, so the confidence for threshold 0.0 is
0.0, not 1.0 as the claim requires. -/
theorem C5_counterexample :
    BootstrapConfidence (fun _ _ => 0) (fun _ _ => 0) [Flt.fin 1, Flt.fin 2, Flt.fin 3]
      [Flt.fin 1, Flt.fin 2, Flt.fin 3] [Flt.fin 0] 1 3 (Flt.fin 0) ≠ Flt.fin 1 := by
  have hmedA : QuickMedian ((fun _ _ => (0 : ℕ)) (2 * 0))
      (bootstrapSample ((fun _ _ => (0 : ℕ)) (2 * 0)) [Flt.fin 1, Flt.fin 2, Flt.fin 3]
        (seedA 3 0)) = Flt.fin 3 := by decide
  have hmedB : QuickMedian ((fun _ _ => (0 : ℕ)) (2 * 0 + 1))
      (bootstrapSample ((fun _ _ => (0 : ℕ)) (2 * 0 + 1)) [Flt.fin 1, Flt.fin 2, Flt.fin 3]
        (seedB 3 0)) = Flt.fin 2 := by decide
  have hd : replicateDelta (fun _ _ => 0) (fun _ _ => 0) [Flt.fin 1, Flt.fin 2, Flt.fin 3]
      [Flt.fin 1, Flt.fin 2, Flt.fin 3] 3 0 = deltaOf (Flt.fin 3) (Flt.fin 2) := by
    simp only [replicateDelta, if_neg (by decide : ¬ (3 : ℕ) = 0)]
    rw [hmedA, hmedB]
  unfold BootstrapConfidence
  rw [if_neg one_ne_zero]
  have hrange : List.range 1 = [0] := rfl
  simp only [hrange, List.foldl_cons, List.foldl_nil, hd]
  rw [bumpCounts_single_neg deltaOf_3_2_neg]
  have hmem : memGo [Flt.fin 0] (Flt.fin 0) = true := by decide
  rw [if_pos hmem]
  intro hcon
  have h0 : ((0 : ℕ) : ℚ) / ((1 : ℕ) : ℚ) = 1 := Flt.fin.inj hcon
  norm_num at h0

/-- C5 witness: the amended theorem at the constant population [5], with
thresholds [0.0, 1.0], one resample and seed 0 (non-deterministic path,
constant-0 oracle). -/
theorem C5_witness :
    BootstrapConfidence (fun _ _ => 0) (fun _ _ => 0) [Flt.fin 5] [Flt.fin 5]
      [Flt.fin 0, Flt.fin 1] 1 0 (Flt.fin 0) = Flt.fin 1 :=
  (C5_identical_constant [Flt.fin 5] (by decide) (Flt.fin 5) (by decide) (by decide)
    1 (by norm_num) 1 0 (by norm_num) (by norm_num) (fun _ _ => 0) (fun _ _ => 0)
    (fun _ _ => by norm_num)).1

/-- C6 (amended): UInt32N(n) returns the upper 64 bits of the 128-bit
product of the full 64-bit draw with n (floor(u64 * n / 2^64)), which is
strictly below n for n > 0 and equals 0 for n in 0, 1. The claim's
description — high 32 bits of the 64-bit product of a 32-bit draw with
n — computes a different function, refuted by the counterexample. -/
theorem C6_uint32n (g : DPRNG) (n : ℕ) :
    (DPRNG.UInt32N g n).2 = (DPRNG.Uint64 g).2 * (n % 2 ^ 32) / U64 ∧
      (0 < n → (DPRNG.UInt32N g n).2 < n) ∧
      (n = 0 ∨ n = 1 → (DPRNG.UInt32N g n).2 = 0) := by
  refine ⟨rfl, fun hn => uint32N_lt hn, ?_⟩
  intro h
  have hval : (DPRNG.UInt32N g n).2 = (DPRNG.Uint64 g).2 * (n % 2 ^ 32) / U64 := rfl
  rcases h with h | h
  · rw [hval, h]
    norm_num
  · rw [hval, h]
    have h1 : (1 : ℕ) % 2 ^ 32 = 1 := by norm_num
    rw [h1, Nat.mul_one]
    exact Nat.div_eq_of_lt (uint64_lt g)

/-- C6 counterexample: a reachable generator state (scrambler 1) whose
64-bit draw is 0x55555555AAAAAAAB: for n = 3 the code returns 1 while
the claimed 32-bit-draw construction yields 0. -/
theorem C6_counterexample :
    (DPRNG.UInt32N ⟨17183398782560847871, 1, 0⟩ 3).2
      ≠ uint32NSpec (DPRNG.Uint64 ⟨17183398782560847871, 1, 0⟩).2 3 := by
  decide

/-- C6 witness: the bound part of the amended theorem at a concrete
generator and n = 7. -/
theorem C6_witness : (DPRNG.UInt32N (mkDPRNG 1) 7).2 < 7 :=
  (C6_uint32n (mkDPRNG 1) 7).2.1 (by decide)

/-- C7: CompareSamples returns the InsufficientData error with an empty
result list (and the caller's thresholds untouched) when either input
has fewer than MinimumDataPoints = 11 elements, and returns no error
when both have at least 11. -/
theorem C7_min_data (π κ : ℕ → ℕ → ℕ) (A B gains : List Flt) (r : ℕ) :
    (A.length < MinimumDataPoints ∨ B.length < MinimumDataPoints →
        CompareSamples π κ A B gains r = ⟨[], true, gains⟩) ∧
      (MinimumDataPoints ≤ A.length → MinimumDataPoints ≤ B.length →
        (CompareSamples π κ A B gains r).isError = false) := by
  constructor
  · intro h
    simp only [CompareSamples, if_pos h]
  · intro h1 h2
    have hn : ¬ (A.length < MinimumDataPoints ∨ B.length < MinimumDataPoints) := by
      push_neg
      exact ⟨h1, h2⟩
    simp only [CompareSamples, if_neg hn]

/-- C7 witness: the error branch at a 1-element A, and the no-error
branch at two 11-element inputs. -/
theorem C7_witness :
    CompareSamples (fun _ _ => 0) (fun _ _ => 0) [Flt.fin 1]
        (List.replicate 11 (Flt.fin 0)) [Flt.fin 0] 1 = ⟨[], true, [Flt.fin 0]⟩ ∧
      (CompareSamples (fun _ _ => 0) (fun _ _ => 0) (List.replicate 11 (Flt.fin 100))
        (List.replicate 11 (Flt.fin 0)) [Flt.fin 0] 1).isError = false :=
  ⟨(C7_min_data _ _ _ _ _ _).1 (Or.inl (by decide)),
    (C7_min_data _ _ _ _ _ _).2 (by decide) (by decide)⟩

/-- C9: after a CompareSamples call that passes validation with a
non-empty relativeGains list, the caller's relativeGains buffer holds
exactly sortGo of its old contents: a permutation of the original
thresholds, sorted ascending — an in-place mutation of a caller
argument. -/
theorem C9_sorts_in_place (π κ : ℕ → ℕ → ℕ) (A B gains : List Flt) (r : ℕ)
    (h1 : MinimumDataPoints ≤ A.length) (h2 : MinimumDataPoints ≤ B.length)
    (hg : gains ≠ []) :
    (CompareSamples π κ A B gains r).gainsAfter = sortGo gains ∧
      List.Perm (CompareSamples π κ A B gains r).gainsAfter gains ∧
      List.Sorted leGo (CompareSamples π κ A B gains r).gainsAfter := by
  have hn : ¬ (A.length < MinimumDataPoints ∨ B.length < MinimumDataPoints) := by
    push_neg
    exact ⟨h1, h2⟩
  have he : (CompareSamples π κ A B gains r).gainsAfter = sortGo gains := by
    simp only [CompareSamples, if_neg hn, if_neg hg]
  refine ⟨he, ?_, ?_⟩
  · rw [he]
    exact sortGo_perm gains
  · rw [he]
    exact sortGo_sorted gains

/-- C9 witness: the theorem at two 11-element inputs and the unsorted
threshold list [2, 1]. -/
theorem C9_witness :
    (CompareSamples (fun _ _ => 0) (fun _ _ => 0) (List.replicate 11 (Flt.fin 1))
      (List.replicate 11 (Flt.fin 2)) [Flt.fin 2, Flt.fin 1] 0).gainsAfter
      = sortGo [Flt.fin 2, Flt.fin 1] :=
  (C9_sorts_in_place _ _ _ _ _ 0 (by decide) (by decide) (by decide)).1

/-- C8: bootstrapSample returns a sequence of exactly the population's
length, each element of which is the population's element at some index
below its length; the empty population yields the empty sample (the
original population is untouched: the embedding is a pure function of it
and the Go code writes only into the freshly allocated sample). The
oracle hypothesis records that the CPRNG's Uint32N results used on the
zero-seed path lie below the population length, as the real CPRNG
guarantees. -/
theorem C8_bootstrap_sample (κ : ℕ → ℕ) (xs : List Flt) (sd : ℕ)
    (hκ : sd = 0 → ∀ i, κ i < xs.length) :
    (bootstrapSample κ xs sd).length = xs.length ∧
      (∀ y ∈ bootstrapSample κ xs sd, ∃ j, j < xs.length ∧ y = xs.getD j Flt.nan) ∧
      (xs = [] → bootstrapSample κ xs sd = []) := by
  refine ⟨bootstrapSample_length κ xs sd, bootstrapSample_mem κ xs sd hκ, ?_⟩
  intro h
  rw [h]
  rfl

/-- C8 witness: the length part at a concrete two-element population with
seed 0 and the constant-0 oracle. -/
theorem C8_witness :
    (bootstrapSample (fun _ => 0) [Flt.fin 5, Flt.fin 7] 0).length
      = [Flt.fin 5, Flt.fin 7].length :=
  (C8_bootstrap_sample (fun _ => 0) [Flt.fin 5, Flt.fin 7] 0 (fun _ i => by norm_num)).1

/-- C10: quickselect's selection loop is total for every float64 sequence
— NaN entries included, where every pivot comparison is false — and
every in-range k: run with fuel equal to the sequence length (one unit
per iteration), it never exhausts the fuel, because each iteration
either returns or strictly shrinks the window, and high = p - 1 is taken
only when p > k ≥ 0 so the index never underflows. -/
theorem C10_quickselect_total (draws : ℕ → ℕ) (xs : List Flt) (k t : ℕ)
    (hk : k < xs.length) :
    (qsLoop draws k xs.length xs 0 (xs.length - 1) t).isSome = true :=
  qsLoop_some draws k xs.length xs 0 (xs.length - 1) t (by omega) (by omega) (by omega)
    (by omega)

/-- C10 witness: the loop on the NaN-containing sequence [NaN, 1.0] at
k = 1 with the constant-1 draw stream. -/
theorem C10_witness :
    (qsLoop (fun _ => 1) 1 [Flt.nan, Flt.fin 1].length [Flt.nan, Flt.fin 1] 0
      ([Flt.nan, Flt.fin 1].length - 1) 0).isSome = true :=
  C10_quickselect_total (fun _ => 1) [Flt.nan, Flt.fin 1] 1 0 (by decide)


end RT